import Mathlib

/-!
A verification development for the `ethabi` contract-ABI library: the
declarative `Param`/`Function` layer (from `src/ethabi/src/param.rs` and
`src/ethabi/src/function.rs`) over a model of the core type system,
encoder, decoder and selector, which are modelled from the specification
of the crate (the core modules are not part of the two source files).

Bytes are modelled as `List Nat` (each entry one byte), 256-bit machine
words as `Fin (2 ^ 256)` mirroring the Rust `U256`, addresses as lists of
length 20 mirroring `H160`, and Rust text as lists of Unicode scalar
values.
-/

namespace Ethabi

/-! ## Byte and word primitives -/

/-- Big-endian byte rendering of `v` into exactly `n` bytes (low bytes of `v`). -/
def beBytes : Nat → Nat → List Nat
  | 0, _ => []
  | n + 1, v => beBytes n (v / 256) ++ [v % 256]

/-- A 32-byte big-endian word holding `v` (mod `2 ^ 256`). -/
def beWord (v : Nat) : List Nat := beBytes 32 v

/-- Big-endian value of a byte list. -/
def beVal (bs : List Nat) : Nat := bs.foldl (fun a b => a * 256 + b) 0

/-- Right-pad a byte list with zeros up to the next 32-byte boundary. -/
def padRight32 (bs : List Nat) : List Nat :=
  bs ++ List.replicate ((32 - bs.length % 32) % 32) 0

/-! ## Unicode scalars and UTF-8, mirroring Rust `String`/`char` -/

/-- A valid Unicode scalar value: the invariant of a Rust `char`. -/
def ValidScalar (n : Nat) : Prop := n < 0xd800 ∨ (0xe000 ≤ n ∧ n < 0x110000)

instance (n : Nat) : Decidable (ValidScalar n) := by
  unfold ValidScalar; infer_instance

/-- The model of a Rust `char`: a Unicode scalar value. -/
def Rune := { n : Nat // ValidScalar n }

instance : DecidableEq Rune := Subtype.instDecidableEq

/-- UTF-8 encoding of one Unicode scalar value. -/
def utf8EncodeScalar (n : Nat) : List Nat :=
  if n < 0x80 then [n]
  else if n < 0x800 then [0xc0 + n / 64, 0x80 + n % 64]
  else if n < 0x10000 then [0xe0 + n / 4096, 0x80 + n / 64 % 64, 0x80 + n % 64]
  else [0xf0 + n / 262144, 0x80 + n / 4096 % 64, 0x80 + n / 64 % 64, 0x80 + n % 64]

/-- UTF-8 encoding of a scalar sequence: the byte content of a Rust `String`. -/
def utf8Encode : List Rune → List Nat
  | [] => []
  | r :: rs => utf8EncodeScalar r.val ++ utf8Encode rs

/-- Is `b` a UTF-8 continuation byte. -/
def isCont (b : Nat) : Bool := 0x80 ≤ b && b < 0xc0

/-- Decode one UTF-8 sequence from the front of a byte list, rejecting
stray continuations, overlong forms, surrogates and out-of-range values. -/
def utf8DecodeChar : List Nat → Option (Nat × List Nat)
  | [] => none
  | b0 :: rest =>
    if b0 < 0x80 then some (b0, rest)
    else if b0 < 0xc2 then none
    else if b0 < 0xe0 then
      match rest with
      | b1 :: r =>
        if isCont b1 then some ((b0 - 0xc0) * 64 + (b1 - 0x80), r) else none
      | [] => none
    else if b0 < 0xf0 then
      match rest with
      | b1 :: b2 :: r =>
        if isCont b1 && isCont b2 then
          let v := (b0 - 0xe0) * 4096 + (b1 - 0x80) * 64 + (b2 - 0x80)
          if 0x800 ≤ v && !(0xd800 ≤ v && v < 0xe000) then some (v, r) else none
        else none
      | _ => none
    else if b0 < 0xf5 then
      match rest with
      | b1 :: b2 :: b3 :: r =>
        if isCont b1 && isCont b2 && isCont b3 then
          let v := (b0 - 0xf0) * 262144 + (b1 - 0x80) * 4096 + (b2 - 0x80) * 64 + (b3 - 0x80)
          if 0x10000 ≤ v && v < 0x110000 then some (v, r) else none
        else none
      | _ => none
    else none

/-- Fuelled UTF-8 decoding loop (the fuel only bounds the recursion; one
byte list position is consumed per step, so `bs.length` fuel suffices). -/
def utf8DecodeAux : Nat → List Nat → Option (List Rune)
  | _, [] => some []
  | 0, _ :: _ => none
  | fuel + 1, b :: bs => do
    let (v, rest) ← utf8DecodeChar (b :: bs)
    if h : ValidScalar v then
      let rs ← utf8DecodeAux fuel rest
      some (⟨v, h⟩ :: rs)
    else none

/-- Decode a byte list as UTF-8 text, or fail on malformed input. -/
def utf8Decode (bs : List Nat) : Option (List Rune) := utf8DecodeAux bs.length bs

/-! ## The type system (`Kind`)

Modelled from the spec: the closed recursive `Kind` set of section 3
(`ParamType` in the crate), which is not among the provided source files. -/

/-- Modelled from the spec: the closed, recursive set of value types. -/
inductive ParamType where
  | Bool : ParamType
  | Address : ParamType
  | Uint (bits : Nat) : ParamType
  | Int (bits : Nat) : ParamType
  | FixedBytes (n : Nat) : ParamType
  | Bytes : ParamType
  | String : ParamType
  | FixedArray (k : ParamType) (n : Nat) : ParamType
  | Array (k : ParamType) : ParamType
  | Tuple (ks : List ParamType) : ParamType

mutual

/-- Modelled from the spec: the static/dynamic classification of section 3,
applied recursively. -/
def ParamType.isDynamic : ParamType → Bool
  | .Bytes => true
  | .String => true
  | .Array _ => true
  | .FixedArray k _ => k.isDynamic
  | .Tuple ks => anyDynamic ks
  | _ => false

/-- Modelled from the spec: is any member of the list dynamic. -/
def anyDynamic : List ParamType → Bool
  | [] => false
  | k :: ks => k.isDynamic || anyDynamic ks

end

mutual

/-- Byte size of the head region contributed by one static kind. -/
def staticSize : ParamType → Nat
  | .FixedArray k n => n * staticSize k
  | .Tuple ks => staticSizeList ks
  | _ => 32

/-- Sum of the static sizes of a kind list. -/
def staticSizeList : List ParamType → Nat
  | [] => 0
  | k :: ks => staticSize k + staticSizeList ks

end

/-- Head-slot width of a kind: one offset word if dynamic, else its static size. -/
def headSize (k : ParamType) : Nat := if k.isDynamic then 32 else staticSize k

mutual

/-- Structural size measure of a kind (used as decoder fuel bound). -/
def sizeK : ParamType → Nat
  | .FixedArray k _ => 1 + sizeK k
  | .Array k => 1 + sizeK k
  | .Tuple ks => 1 + sizeKs ks
  | _ => 1

/-- Structural size measure of a kind list. -/
def sizeKs : List ParamType → Nat
  | [] => 0
  | k :: ks => sizeK k + sizeKs ks

end

/-! ## The value model (`Token`)

Modelled from the spec: the tagged value union of section 3, mirroring the
shapes of `Kind`. -/

/-- The model of the Rust `H160` address payload: exactly 20 bytes. -/
def Addr := { bs : List Nat // bs.length = 20 }

instance : DecidableEq Addr := Subtype.instDecidableEq

/-- Modelled from the spec: the tagged value union consumed by the encoder
and produced by the decoder. Numeric payloads are 256-bit values (`U256`),
addresses 20 bytes (`H160`), text a sequence of Unicode scalars. -/
inductive Token where
  | Bool (b : Bool) : Token
  | Address (a : Addr) : Token
  | Uint (v : Fin (2 ^ 256)) : Token
  | Int (v : Fin (2 ^ 256)) : Token
  | FixedBytes (bs : List Nat) : Token
  | Bytes (bs : List Nat) : Token
  | String (s : List Rune) : Token
  | FixedArray (ts : List Token) : Token
  | Array (ts : List Token) : Token
  | Tuple (ts : List Token) : Token

mutual

/-- Dynamic classification of a token, by its own shape. -/
def Token.isDynamic : Token → Bool
  | .Bytes _ => true
  | .String _ => true
  | .Array _ => true
  | .FixedArray ts => anyDynamicTok ts
  | .Tuple ts => anyDynamicTok ts
  | _ => false

/-- Is any token of the list dynamic. -/
def anyDynamicTok : List Token → Bool
  | [] => false
  | t :: ts => t.isDynamic || anyDynamicTok ts

end

/-! ## Type checking (Token/Kind conformance)

Modelled from the spec: section 4.2. Only variant identity is checked
(plus recursion into containers and the fixed-array element count);
numeric magnitudes and byte-string lengths are not inspected. -/

mutual

/-- Modelled from the spec: structural conformance of one token to one kind
(section 4.2); `Token::type_check` in the crate. -/
def type_check : Token → ParamType → Bool
  | .Bool _, .Bool => true
  | .Address _, .Address => true
  | .Uint _, .Uint _ => true
  | .Int _, .Int _ => true
  | .FixedBytes _, .FixedBytes _ => true
  | .Bytes _, .Bytes => true
  | .String _, .String => true
  | .FixedArray ts, .FixedArray k n => ts.length == n && type_check_all ts k
  | .Array ts, .Array k => type_check_all ts k
  | .Tuple ts, .Tuple ks => types_check_seq ts ks
  | _, _ => false

/-- Every token of the list conforms to the one element kind. -/
def type_check_all : List Token → ParamType → Bool
  | [], _ => true
  | t :: ts, k => type_check t k && type_check_all ts k

/-- Positional conformance of a token list to a kind list (equal length). -/
def types_check_seq : List Token → List ParamType → Bool
  | [], [] => true
  | t :: ts, k :: ks => type_check t k && types_check_seq ts ks
  | _, _ => false

end

/-- Modelled from the spec: `Token::types_check` — positional conformance of
a token sequence to a declared kind sequence. -/
def types_check (tokens : List Token) (ks : List ParamType) : Bool :=
  types_check_seq tokens ks

/-! ## Encoder

Modelled from the spec: section 4.3, the head/tail word layout. The head
region is emitted with offsets computed from the full head length plus the
lengths of the tail blocks already placed. -/

mutual

/-- Modelled from the spec: the inline (head) encoding of a static token. -/
def encStatic : Token → List Nat
  | .Bool b => beWord (if b then 1 else 0)
  | .Address a => List.replicate 12 0 ++ a.val
  | .Uint v => beWord v.val
  | .Int v => beWord v.val
  | .FixedBytes bs => padRight32 bs
  | .FixedArray ts => encHeads (headsLen ts) 0 ts ++ encTails ts
  | .Tuple ts => encHeads (headsLen ts) 0 ts ++ encTails ts
  | _ => []

/-- Modelled from the spec: the tail block of a dynamic token. -/
def encTail : Token → List Nat
  | .Bytes bs => beWord bs.length ++ padRight32 bs
  | .String s => beWord (utf8Encode s).length ++ padRight32 (utf8Encode s)
  | .Array ts => beWord ts.length ++ (encHeads (headsLen ts) 0 ts ++ encTails ts)
  | .FixedArray ts => encHeads (headsLen ts) 0 ts ++ encTails ts
  | .Tuple ts => encHeads (headsLen ts) 0 ts ++ encTails ts
  | _ => []

/-- The head region of a token sequence: static tokens inline, dynamic
tokens as offset words `hl + tailOff` (bytes from the region start). -/
def encHeads (hl tailOff : Nat) : List Token → List Nat
  | [] => []
  | t :: ts =>
    if t.isDynamic then
      beWord (hl + tailOff) ++ encHeads hl (tailOff + (encTail t).length) ts
    else
      encStatic t ++ encHeads hl tailOff ts

/-- The tail region of a token sequence: tail blocks of its dynamic tokens
in token order. -/
def encTails : List Token → List Nat
  | [] => []
  | t :: ts => (if t.isDynamic then encTail t else []) ++ encTails ts

/-- Total byte length of the head region of a token sequence. -/
def headsLen : List Token → Nat
  | [] => 0
  | t :: ts => (if t.isDynamic then 32 else (encStatic t).length) + headsLen ts

end

/-- Modelled from the spec: one head/tail region for a token sequence. -/
def encSeq (ts : List Token) : List Nat := encHeads (headsLen ts) 0 ts ++ encTails ts

/-- Modelled from the spec: `encode` — serialize an ordered token sequence
into the padded head/tail byte layout (section 4.3). -/
def encode (tokens : List Token) : List Nat := encSeq tokens

/-! ## Decoder

Modelled from the spec: section 4.4. A cursor walks the head region; a
dynamic kind reads its head word as a byte offset from the start of the
enclosing region and decodes the tail block found there, with mandatory
bounds checks on every read. The fuel only bounds recursion into the kind
structure and never runs out when it exceeds the kind size. -/

/-- Read the 32-byte word at `pos`, bounds-checked. -/
def wordAt (frame : List Nat) (pos : Nat) : Option Nat :=
  if pos + 32 ≤ frame.length then some (beVal ((frame.drop pos).take 32)) else none

/-- Read `len` bytes at `pos`, bounds-checked. -/
def sliceAt (frame : List Nat) (pos len : Nat) : Option (List Nat) :=
  if pos + len ≤ frame.length then some ((frame.drop pos).take len) else none

/-- Decode `m` consecutive values with the given element decoder, advancing
the head cursor by `step` bytes each time. -/
def decLoop (d : List Nat → Nat → Option Token) (step : Nat) :
    Nat → List Nat → Nat → Option (List Token)
  | 0, _, _ => some []
  | m + 1, frame, pos => do
    let t ← d frame pos
    let ts ← decLoop d step m frame (pos + step)
    some (t :: ts)

/-- Decode one value per kind of `ks`, walking the head region from `pos`. -/
def decFields (d : ParamType → List Nat → Nat → Option Token) :
    List ParamType → List Nat → Nat → Option (List Token)
  | [], _, _ => some []
  | k :: ks, frame, pos => do
    let t ← d k frame pos
    let ts ← decFields d ks frame (pos + headSize k)
    some (t :: ts)

/-- Modelled from the spec: decode one value of kind `k` whose head slot
lies at byte `pos` of the region `frame` (section 4.4). -/
def dec : Nat → ParamType → List Nat → Nat → Option Token
  | 0, _, _, _ => none
  | fuel + 1, k, frame, pos =>
    match k with
    | .Bool => do
      let w ← wordAt frame pos
      some (.Bool (w == 1))
    | .Address => do
      let bs ← sliceAt frame pos 32
      let a := bs.drop 12
      if h : a.length = 20 then some (.Address ⟨a, h⟩) else none
    | .Uint _ => do
      let w ← wordAt frame pos
      if h : w < 2 ^ 256 then some (.Uint ⟨w, h⟩) else none
    | .Int _ => do
      let w ← wordAt frame pos
      if h : w < 2 ^ 256 then some (.Int ⟨w, h⟩) else none
    | .FixedBytes n => do
      let bs ← sliceAt frame pos 32
      some (.FixedBytes (bs.take n))
    | .Bytes => do
      let off ← wordAt frame pos
      let len ← wordAt frame off
      let data ← sliceAt frame (off + 32) len
      some (.Bytes data)
    | .String => do
      let off ← wordAt frame pos
      let len ← wordAt frame off
      let data ← sliceAt frame (off + 32) len
      let s ← utf8Decode data
      some (.String s)
    | .Array k' => do
      let off ← wordAt frame pos
      let m ← wordAt frame off
      let ts ← decLoop (dec fuel k') (headSize k') m (frame.drop (off + 32)) 0
      some (.Array ts)
    | .FixedArray k' n =>
      if k'.isDynamic then do
        let off ← wordAt frame pos
        let ts ← decLoop (dec fuel k') (headSize k') n (frame.drop off) 0
        some (.FixedArray ts)
      else do
        let ts ← decLoop (dec fuel k') (headSize k') n frame pos
        some (.FixedArray ts)
    | .Tuple ks =>
      if anyDynamic ks then do
        let off ← wordAt frame pos
        let ts ← decFields (dec fuel) ks (frame.drop off) 0
        some (.Tuple ts)
      else do
        let ts ← decFields (dec fuel) ks frame pos
        some (.Tuple ts)

/-- The error taxonomy of the spec (section 7): nonconforming tokens at
encode time, malformed bytes at decode time. -/
inductive AbiError where
  | InvalidData : AbiError
  | MalformedData : AbiError
deriving DecidableEq

/-- Modelled from the spec: `decode` — reconstruct the token sequence for
the expected kinds from a byte buffer, or fail on malformed data. -/
def decode (ks : List ParamType) (data : List Nat) : Except AbiError (List Token) :=
  match decFields (dec (1 + sizeKs ks)) ks data 0 with
  | some ts => .ok ts
  | none => .error .MalformedData

/-! ## Selector

Modelled from the spec: section 4.1 and section 6 — the canonical
signature text over the input kinds, hashed with the 256-bit primitive the
target runtime expects (Keccak-256), truncated to 4 bytes. -/

/-- ASCII bytes of a string literal (used for canonical type names). -/
def strBytes (s : String) : List Nat := s.toList.map Char.toNat

/-- Decimal digit rendering, ASCII (auxiliary, fuelled on the value). -/
def decimalDigits : Nat → Nat → List Nat
  | 0, _ => []
  | fuel + 1, n => if n < 10 then [48 + n] else decimalDigits fuel (n / 10) ++ [48 + n % 10]

/-- ASCII decimal rendering of a natural number. -/
def natDecimal (n : Nat) : List Nat := decimalDigits (n + 1) n

mutual

/-- Modelled from the spec: the canonical textual type name of a kind
(section 4.1), as ASCII bytes. -/
def typeName : ParamType → List Nat
  | .Bool => strBytes "bool"
  | .Address => strBytes "address"
  | .Uint b => strBytes "uint" ++ natDecimal b
  | .Int b => strBytes "int" ++ natDecimal b
  | .FixedBytes n => strBytes "bytes" ++ natDecimal n
  | .Bytes => strBytes "bytes"
  | .String => strBytes "string"
  | .FixedArray k n => typeName k ++ [0x5b] ++ natDecimal n ++ [0x5d]
  | .Array k => typeName k ++ [0x5b, 0x5d]
  | .Tuple ks => [0x28] ++ typeNames ks ++ [0x29]

/-- Comma-joined canonical type names. -/
def typeNames : List ParamType → List Nat
  | [] => []
  | [k] => typeName k
  | k :: ks => typeName k ++ [0x2c] ++ typeNames ks

end

/-- Modelled from the spec: the canonical signature text
`name(type1,type2,...)` as UTF-8 bytes. -/
def signatureBytes (name : List Nat) (ks : List ParamType) : List Nat :=
  name ++ [0x28] ++ typeNames ks ++ [0x29]

/-! ### Keccak-256

Modelled from the spec: the injected pure `hash256` primitive of section 6
— the 256-bit hash matching the target runtime convention, which for the
expected selector values of the crate tests is Keccak-256. -/

/-- Lane read with default 0. -/
def lane (s : List Nat) (i : Nat) : Nat := s.getD i 0

/-- 64-bit left rotation (the argument is below `2 ^ 64`). -/
def rotl (n v : Nat) : Nat := ((v * 2 ^ n) % 2 ^ 64) + (v / 2 ^ (64 - n))

/-- Keccak theta step. -/
def theta (s : List Nat) : List Nat :=
  let c := (List.range 5).map (fun x =>
    lane s x ^^^ lane s (x + 5) ^^^ lane s (x + 10) ^^^ lane s (x + 15) ^^^ lane s (x + 20))
  let d := (List.range 5).map (fun x =>
    lane c ((x + 4) % 5) ^^^ rotl 1 (lane c ((x + 1) % 5)))
  (List.range 25).map (fun i => lane s i ^^^ lane d (i % 5))

/-- For each destination lane of the pi permutation: the source lane and
its rho rotation amount, precomposed (so lane `j` of the result is lane
`src` of the input rotated left by `rot`). -/
def rhoPiPairs : List (Nat × Nat) :=
  [(0, 0), (6, 44), (12, 43), (18, 21), (24, 14),
   (3, 28), (9, 20), (10, 3), (16, 45), (22, 61),
   (1, 1), (7, 6), (13, 25), (19, 8), (20, 18),
   (4, 27), (5, 36), (11, 10), (17, 15), (23, 56),
   (2, 62), (8, 55), (14, 39), (15, 41), (21, 2)]

/-- Keccak rho and pi steps combined. -/
def rhopi (s : List Nat) : List Nat :=
  rhoPiPairs.map (fun p => rotl p.2 (lane s p.1))

/-- Keccak chi step. -/
def chi (b : List Nat) : List Nat :=
  (List.range 25).map (fun i =>
    let x := i % 5
    let row := i - x
    lane b i ^^^ ((2 ^ 64 - 1 - lane b (row + (x + 1) % 5)) &&& lane b (row + (x + 2) % 5)))

/-- The bit stream of the degree-8 LFSR that generates the Keccak round
constants: the low bit of the register, stepping the register each time. -/
def rcBitStream : Nat → Nat → List Nat
  | 0, _ => []
  | n + 1, r =>
    r % 2 :: rcBitStream n (if r &&& 0x80 = 0 then r * 2 else ((r * 2) ^^^ 0x71) &&& 0xff)

/-- Keccak round constants, generated from the LFSR bit stream: round
`ir` sets bit `2 ^ j - 1` from stream position `7 * ir + j`. -/
def roundConstants : List Nat :=
  let bits := rcBitStream 168 1
  (List.range 24).map (fun ir =>
    (List.range 7).foldl (fun acc j => acc + bits.getD (7 * ir + j) 0 * 2 ^ (2 ^ j - 1)) 0)

/-- Keccak iota step. -/
def iotaStep (rc : Nat) (s : List Nat) : List Nat := (lane s 0 ^^^ rc) :: s.tail

/-- The Keccak-f[1600] permutation, 24 rounds. -/
def keccakF (s : List Nat) : List Nat :=
  roundConstants.foldl (fun st rc => iotaStep rc (chi (rhopi (theta st)))) s

/-- Little-endian value of a byte list. -/
def leVal (bs : List Nat) : Nat := bs.foldr (fun b a => a * 256 + b) 0

/-- Absorb one 136-byte rate block into the state. -/
def absorbBlock (s : List Nat) (block : List Nat) : List Nat :=
  let lanes := (List.range 17).map (fun i => leVal ((block.drop (8 * i)).take 8))
  (List.range 25).map (fun i => if i < 17 then lane s i ^^^ lane lanes i else lane s i)

/-- Keccak multi-rate padding (pad byte `0x01`, final bit `0x80`). -/
def keccakPad (msg : List Nat) : List Nat :=
  let padlen := 136 - msg.length % 136
  if padlen == 1 then msg ++ [0x81]
  else msg ++ [0x01] ++ List.replicate (padlen - 2) 0 ++ [0x80]

/-- Split into 136-byte chunks (fuelled on the list length). -/
def chunks136 : Nat → List Nat → List (List Nat)
  | 0, _ => []
  | _ + 1, [] => []
  | fuel + 1, bs => bs.take 136 :: chunks136 fuel (bs.drop 136)

/-- Modelled from the spec: the injected 256-bit hash primitive
(Keccak-256): 32 digest bytes for an arbitrary byte sequence. -/
def keccak256 (msg : List Nat) : List Nat :=
  let padded := keccakPad msg
  let st := (chunks136 padded.length padded).foldl
    (fun s block => keccakF (absorbBlock s block)) (List.replicate 25 0)
  (List.range 32).map (fun i => lane st (i / 8) / 2 ^ (8 * (i % 8)) % 256)

/-- Modelled from the spec: `short_signature` — the 4-byte selector, the
truncated hash of the canonical signature (section 4.1). -/
def short_signature (name : List Nat) (ks : List ParamType) : List Nat :=
  (keccak256 (signatureBytes name ks)).take 4

/-! ## The declarative layer: `Param`, `ParamIr`, `Function`

These follow `src/ethabi/src/param.rs` and `src/ethabi/src/function.rs`
directly. -/

/-- Function param (`param.rs`): a name, a kind, and component params
describing tuple members. -/
inductive Param where
  | mk (name : List Nat) (kind : ParamType) (components : List Param) : Param

/-- Param name projection. -/
def Param.name : Param → List Nat
  | ⟨n, _, _⟩ => n

/-- Param kind projection. -/
def Param.kind : Param → ParamType
  | ⟨_, k, _⟩ => k

/-- Param components projection. -/
def Param.components : Param → List Param
  | ⟨_, _, cs⟩ => cs

/-- The deserialization intermediate (`ParamIr` in `param.rs`): same
fields, before tuple-kind folding. -/
structure ParamIr where
  name : List Nat
  kind : ParamType
  components : List Param

/-- The `From ParamIr for Param` conversion of `param.rs`: when the
declared kind is a tuple and components are present, the kind is rebuilt
from the component kinds; everything else is carried over verbatim. -/
def paramOfIr (p : ParamIr) : Param :=
  let kind :=
    match p.kind with
    | ParamType.Tuple _ =>
      if 0 < p.components.length then ParamType.Tuple (p.components.map Param.kind)
      else p.kind
    | _ => p.kind
  ⟨p.name, kind, p.components⟩

/-- Contract function specification (`function.rs`). -/
structure Function where
  name : List Nat
  inputs : List Param
  outputs : List Param
  constant : Bool

/-- `Function::input_param_types`: kinds of the declared inputs, in order. -/
def Function.input_param_types (f : Function) : List ParamType :=
  f.inputs.map Param.kind

/-- `Function::output_param_types`: kinds of the declared outputs, in order. -/
def Function.output_param_types (f : Function) : List ParamType :=
  f.outputs.map Param.kind

/-- `Function::encode_input`: type-check the tokens against the input
kinds; on mismatch fail with the invalid-data error, on success return the
4 selector bytes followed by the encoded tokens. -/
def Function.encode_input (f : Function) (tokens : List Token) :
    Except AbiError (List Nat) :=
  let params := f.input_param_types
  if types_check tokens params then
    .ok (short_signature f.name params ++ encode tokens)
  else
    .error .InvalidData

/-- `Function::decode_output`: decode the data against the output kinds. -/
def Function.decode_output (f : Function) (data : List Nat) :
    Except AbiError (List Token) :=
  decode f.output_param_types data

end Ethabi

namespace Ethabi

/-! ## Strengthened conformance

The round-trip development needs conformance strengthened beyond the
variant check of section 4.2 by exactly the representation invariants the
Rust types carry (`H160`, `U256`, `usize`) together with the structural
invariants of section 3 (`FixedBytes` widths in `1..=32`, matching payload
length) and the exclusion of the degenerate empty fixed array of dynamic
element kind. -/

mutual

/-- Conformance of one token to one kind, strengthened for round-tripping. -/
def good : Token → ParamType → Bool
  | .Bool _, .Bool => true
  | .Address _, .Address => true
  | .Uint _, .Uint _ => true
  | .Int _, .Int _ => true
  | .FixedBytes bs, .FixedBytes n => bs.length == n && decide (1 ≤ n) && decide (n ≤ 32)
  | .Bytes bs, .Bytes => decide (bs.length < 2 ^ 256)
  | .String s, .String => decide ((utf8Encode s).length < 2 ^ 256)
  | .FixedArray ts, .FixedArray k n =>
    ts.length == n && (decide (0 < n) || !k.isDynamic) && goodAll ts k
  | .Array ts, .Array k => decide (ts.length < 2 ^ 256) && goodAll ts k
  | .Tuple ts, .Tuple ks => goodSeq ts ks
  | _, _ => false

/-- Strengthened conformance of every list member to one element kind. -/
def goodAll : List Token → ParamType → Bool
  | [], _ => true
  | t :: ts, k => good t k && goodAll ts k

/-- Positional strengthened conformance of a token list to a kind list. -/
def goodSeq : List Token → List ParamType → Bool
  | [], [] => true
  | t :: ts, k :: ks => good t k && goodSeq ts ks
  | _, _ => false

end

/-! ## Byte and word lemmas -/

theorem beBytes_length (n v : Nat) : (beBytes n v).length = n := by
  induction n generalizing v with
  | zero => rfl
  | succ n ih => simp [beBytes, ih]

theorem beWord_length (v : Nat) : (beWord v).length = 32 := beBytes_length 32 v

theorem beVal_append_singleton (xs : List Nat) (b : Nat) :
    beVal (xs ++ [b]) = beVal xs * 256 + b := by
  simp [beVal, List.foldl_append]

theorem beVal_beBytes (n v : Nat) : beVal (beBytes n v) = v % 256 ^ n := by
  induction n generalizing v with
  | zero => simp [beBytes, beVal, Nat.mod_one]
  | succ n ih =>
    rw [beBytes, beVal_append_singleton, ih]
    rw [pow_succ, Nat.mul_comm (256 ^ n) 256, Nat.mod_mul]
    omega

theorem beVal_beWord (v : Nat) (h : v < 2 ^ 256) : beVal (beWord v) = v := by
  have h2 : (256 : Nat) ^ 32 = 2 ^ 256 := by norm_num
  rw [beWord, beVal_beBytes, h2, Nat.mod_eq_of_lt h]

theorem padRight32_take (bs : List Nat) : (padRight32 bs).take bs.length = bs := by
  simp [padRight32, List.take_left]

theorem padRight32_length_ge (bs : List Nat) : bs.length ≤ (padRight32 bs).length := by
  simp [padRight32]

theorem padRight32_length_32 (bs : List Nat) (h1 : 1 ≤ bs.length) (h32 : bs.length ≤ 32) :
    (padRight32 bs).length = 32 := by
  simp only [padRight32, List.length_append, List.length_replicate]
  rcases Nat.lt_or_ge bs.length 32 with h | h
  · rw [Nat.mod_eq_of_lt h]; omega
  · have : bs.length = 32 := by omega
    simp [this]

end Ethabi

namespace Ethabi

/-! ## UTF-8 round trip -/

theorem utf8DecodeChar_encode (n : Nat) (hn : ValidScalar n) (rest : List Nat) :
    utf8DecodeChar (utf8EncodeScalar n ++ rest) = some (n, rest) := by
  have hrange : n < 0x110000 := by rcases hn with h | h <;> omega
  unfold utf8EncodeScalar
  by_cases h1 : n < 0x80
  · rw [if_pos h1]
    simp only [List.cons_append, List.nil_append, utf8DecodeChar, if_pos h1]
  · rw [if_neg h1]
    by_cases h2 : n < 0x800
    · rw [if_pos h2]
      have e1 : ¬ (0xc0 + n / 64 < 0x80) := by omega
      have e2 : ¬ (0xc0 + n / 64 < 0xc2) := by omega
      have e3 : 0xc0 + n / 64 < 0xe0 := by omega
      simp only [List.cons_append, List.nil_append, utf8DecodeChar,
        if_neg e1, if_neg e2, if_pos e3, isCont]
      have e4 : (decide (0x80 ≤ 0x80 + n % 64) && decide (0x80 + n % 64 < 0xc0)) = true := by
        simp; omega
      rw [if_pos e4]
      simp only [Option.some.injEq, Prod.mk.injEq]
      exact ⟨by omega, trivial⟩
    · rw [if_neg h2]
      by_cases h3 : n < 0x10000
      · rw [if_pos h3]
        have e1 : ¬ (0xe0 + n / 4096 < 0x80) := by omega
        have e2 : ¬ (0xe0 + n / 4096 < 0xc2) := by omega
        have e3 : ¬ (0xe0 + n / 4096 < 0xe0) := by omega
        have e4 : 0xe0 + n / 4096 < 0xf0 := by omega
        simp only [List.cons_append, List.nil_append, utf8DecodeChar,
          if_neg e1, if_neg e2, if_neg e3, if_pos e4, isCont]
        have e5 : (decide (0x80 ≤ 0x80 + n / 64 % 64) && decide (0x80 + n / 64 % 64 < 0xc0)) = true := by
          simp; omega
        have e6 : (decide (0x80 ≤ 0x80 + n % 64) && decide (0x80 + n % 64 < 0xc0)) = true := by
          simp; omega
        have e56 : (decide (0x80 ≤ 0x80 + n / 64 % 64) && decide (0x80 + n / 64 % 64 < 0xc0) &&
            (decide (0x80 ≤ 0x80 + n % 64) && decide (0x80 + n % 64 < 0xc0))) = true := by
          rw [e5, e6]; rfl
        rw [if_pos e56]
        have hv : (0xe0 + n / 4096 - 0xe0) * 4096 + (0x80 + n / 64 % 64 - 0x80) * 64 +
            (0x80 + n % 64 - 0x80) = n := by omega
        simp only [hv]
        have hs : ¬ (0xd800 ≤ n ∧ n < 0xe000) := by
          rcases hn with h | h <;> omega
        have e7 : (decide (0x800 ≤ n) && !(decide (0xd800 ≤ n) && decide (n < 0xe000))) = true := by
          simp; omega
        rw [if_pos e7]
      · rw [if_neg h3]
        have e1 : ¬ (0xf0 + n / 262144 < 0x80) := by omega
        have e2 : ¬ (0xf0 + n / 262144 < 0xc2) := by omega
        have e3 : ¬ (0xf0 + n / 262144 < 0xe0) := by omega
        have e4 : ¬ (0xf0 + n / 262144 < 0xf0) := by omega
        have e5 : 0xf0 + n / 262144 < 0xf5 := by omega
        simp only [List.cons_append, List.nil_append, utf8DecodeChar,
          if_neg e1, if_neg e2, if_neg e3, if_neg e4, if_pos e5, isCont]
        have c1 : (decide (0x80 ≤ 0x80 + n / 4096 % 64) && decide (0x80 + n / 4096 % 64 < 0xc0)) = true := by
          simp; omega
        have c2 : (decide (0x80 ≤ 0x80 + n / 64 % 64) && decide (0x80 + n / 64 % 64 < 0xc0)) = true := by
          simp; omega
        have c3 : (decide (0x80 ≤ 0x80 + n % 64) && decide (0x80 + n % 64 < 0xc0)) = true := by
          simp; omega
        have c123 : (decide (0x80 ≤ 0x80 + n / 4096 % 64) && decide (0x80 + n / 4096 % 64 < 0xc0) &&
            (decide (0x80 ≤ 0x80 + n / 64 % 64) && decide (0x80 + n / 64 % 64 < 0xc0)) &&
            (decide (0x80 ≤ 0x80 + n % 64) && decide (0x80 + n % 64 < 0xc0))) = true := by
          rw [c1, c2, c3]; rfl
        rw [if_pos c123]
        have hv : (0xf0 + n / 262144 - 0xf0) * 262144 + (0x80 + n / 4096 % 64 - 0x80) * 4096 +
            (0x80 + n / 64 % 64 - 0x80) * 64 + (0x80 + n % 64 - 0x80) = n := by omega
        simp only [hv]
        have e6 : (decide (0x10000 ≤ n) && decide (n < 0x110000)) = true := by
          simp; omega
        rw [if_pos e6]

theorem utf8EncodeScalar_length_pos (n : Nat) : 1 ≤ (utf8EncodeScalar n).length := by
  unfold utf8EncodeScalar
  split_ifs <;> simp

theorem utf8DecodeAux_encode (rs : List Rune) :
    ∀ fuel, (utf8Encode rs).length ≤ fuel →
      utf8DecodeAux fuel (utf8Encode rs) = some rs := by
  induction rs with
  | nil => intro fuel _; cases fuel <;> rfl
  | cons r rs ih =>
    intro fuel hfuel
    have hlen := utf8EncodeScalar_length_pos r.val
    have hcons : ∃ b bs, utf8EncodeScalar r.val = b :: bs := by
      cases hh : utf8EncodeScalar r.val with
      | nil => rw [hh] at hlen; simp at hlen
      | cons b bs => exact ⟨b, bs, rfl⟩
    obtain ⟨b, bs, hbs⟩ := hcons
    have henc : utf8Encode (r :: rs) = b :: (bs ++ utf8Encode rs) := by
      rw [utf8Encode, hbs]; simp
    rw [henc] at hfuel ⊢
    cases fuel with
    | zero => simp at hfuel
    | succ fuel =>
      have hdc : utf8DecodeChar (b :: (bs ++ utf8Encode rs)) = some (r.val, utf8Encode rs) := by
        have := utf8DecodeChar_encode r.val r.property (utf8Encode rs)
        rw [hbs] at this
        simpa using this
      rw [utf8DecodeAux, hdc]
      simp only [Option.bind_eq_bind, Option.some_bind]
      rw [dif_pos r.property]
      have hrec : utf8DecodeAux fuel (utf8Encode rs) = some rs := by
        apply ih
        have : bs.length + (utf8Encode rs).length ≤ fuel := by
          simpa using hfuel
        omega
      rw [hrec]
      rfl

theorem utf8Decode_encode (rs : List Rune) : utf8Decode (utf8Encode rs) = some rs :=
  utf8DecodeAux_encode rs (utf8Encode rs).length (Nat.le_refl _)

end Ethabi

namespace Ethabi

/-! ## Induction principle for the nested `Token` type -/

section TokenInd

variable (P : Token → Prop) (Q : List Token → Prop)
variable (hb : ∀ b, P (.Bool b)) (ha : ∀ a, P (.Address a))
variable (hu : ∀ v, P (.Uint v)) (hi : ∀ v, P (.Int v))
variable (hfb : ∀ bs, P (.FixedBytes bs)) (hby : ∀ bs, P (.Bytes bs))
variable (hs : ∀ s, P (.String s))
variable (hfa : ∀ ts, Q ts → P (.FixedArray ts))
variable (har : ∀ ts, Q ts → P (.Array ts))
variable (htu : ∀ ts, Q ts → P (.Tuple ts))
variable (hnil : Q []) (hcons : ∀ t ts, P t → Q ts → Q (t :: ts))

mutual

/-- Mutual induction over tokens and token lists. -/
def tokenInd : ∀ t, P t
  | .Bool b => hb b
  | .Address a => ha a
  | .Uint v => hu v
  | .Int v => hi v
  | .FixedBytes bs => hfb bs
  | .Bytes bs => hby bs
  | .String s => hs s
  | .FixedArray ts => hfa ts (tokenListInd ts)
  | .Array ts => har ts (tokenListInd ts)
  | .Tuple ts => htu ts (tokenListInd ts)

/-- Mutual induction over token lists. -/
def tokenListInd : ∀ ts, Q ts
  | [] => hnil
  | t :: ts => hcons t ts (tokenInd t) (tokenListInd ts)

end

end TokenInd

/-! ## List positioning helpers -/

theorem take_append_len (X Y : List Nat) (n : Nat) (h : X.length = n) :
    (X ++ Y).take n = X := by
  subst h; exact List.take_left X Y

theorem drop_append_len (X Y : List Nat) (n : Nat) (h : X.length = n) :
    (X ++ Y).drop n = Y := by
  subst h; exact List.drop_left X Y

theorem drop_of_drop (frame : List Nat) (a b : Nat) :
    (frame.drop a).drop b = frame.drop (a + b) := by
  rw [List.drop_drop]

theorem wordAt_of_drop (frame : List Nat) (pos v : Nat) (rest : List Nat)
    (hv : v < 2 ^ 256) (h : frame.drop pos = beWord v ++ rest) :
    wordAt frame pos = some v := by
  have hlen : frame.length - pos = 32 + rest.length := by
    have := congrArg List.length h
    simpa [beWord_length] using this
  unfold wordAt
  rw [if_pos (by omega), h, take_append_len _ _ 32 (beWord_length v), beVal_beWord v hv]

theorem sliceAt_of_drop (frame : List Nat) (pos n : Nat) (X rest : List Nat)
    (h : frame.drop pos = X ++ rest) (hn : X.length = n) (hpos : pos ≤ frame.length) :
    sliceAt frame pos n = some X := by
  have hlen : frame.length - pos = n + rest.length := by
    have := congrArg List.length h
    simpa [hn] using this
  unfold sliceAt
  rw [if_pos (by omega), h, take_append_len _ _ n hn]

theorem drop_len_bound (frame : List Nat) (pos : Nat) (X rest : List Nat)
    (h : frame.drop pos = X ++ rest) : X.length ≤ frame.length - pos := by
  have := congrArg List.length h
  simp at this
  omega

/-! ## Encoder structure lemmas -/

theorem encHeads_length (ts : List Token) :
    ∀ hl tailOff, (encHeads hl tailOff ts).length = headsLen ts := by
  induction ts with
  | nil => intro hl tailOff; rfl
  | cons t ts ih =>
    intro hl tailOff
    rw [encHeads, headsLen]
    by_cases hd : t.isDynamic
    · rw [if_pos hd, if_pos hd]
      simp [beWord_length, ih]
    · rw [if_neg hd, if_neg hd]
      simp [ih]

theorem encTails_of_static (ts : List Token) (h : anyDynamicTok ts = false) :
    encTails ts = [] := by
  induction ts with
  | nil => rfl
  | cons t ts ih =>
    rw [anyDynamicTok] at h
    simp only [Bool.or_eq_false_iff] at h
    rw [encTails, if_neg (by simp [h.1]), ih h.2]
    rfl

theorem encHeads_static_congr (ts : List Token) (h : anyDynamicTok ts = false) :
    ∀ hl tailOff hl' tailOff', encHeads hl tailOff ts = encHeads hl' tailOff' ts := by
  induction ts with
  | nil => intro _ _ _ _; rfl
  | cons t ts ih =>
    intro hl tailOff hl' tailOff'
    rw [anyDynamicTok] at h
    simp only [Bool.or_eq_false_iff] at h
    rw [encHeads, encHeads, if_neg (by simp [h.1]), if_neg (by simp [h.1]), ih h.2]

end Ethabi

namespace Ethabi

/-! ## Conformance transfers dynamism and static size -/

/-- Dynamism agreement motive for one token. -/
def DynP (t : Token) : Prop := ∀ k, good t k = true → t.isDynamic = k.isDynamic

/-- Dynamism agreement motive for token lists. -/
def DynQ (ts : List Token) : Prop :=
  (∀ ks, goodSeq ts ks = true → anyDynamicTok ts = anyDynamic ks) ∧
  (∀ k, goodAll ts k = true → anyDynamicTok ts = (!ts.isEmpty && k.isDynamic))

theorem dynP_all : ∀ t, DynP t := by
  refine tokenInd DynP DynQ ?_ ?_ ?_ ?_ ?_ ?_ ?_ ?_ ?_ ?_ ?_ ?_
  · intro b k h; cases k <;> simp_all [good, Token.isDynamic, ParamType.isDynamic]
  · intro a k h; cases k <;> simp_all [good, Token.isDynamic, ParamType.isDynamic]
  · intro v k h; cases k <;> simp_all [good, Token.isDynamic, ParamType.isDynamic]
  · intro v k h; cases k <;> simp_all [good, Token.isDynamic, ParamType.isDynamic]
  · intro bs k h; cases k <;> simp_all [good, Token.isDynamic, ParamType.isDynamic]
  · intro bs k h; cases k <;> simp_all [good, Token.isDynamic, ParamType.isDynamic]
  · intro s k h; cases k <;> simp_all [good, Token.isDynamic, ParamType.isDynamic]
  · -- FixedArray
    intro ts hq k h
    cases k <;> simp_all [good, Token.isDynamic, ParamType.isDynamic]
    rename_i k n
    obtain ⟨⟨hlen, hcond⟩, hall⟩ := h
    rw [hq.2 k hall]
    cases ts with
    | nil =>
      have : n = 0 := by simpa using hlen.symm
      subst this
      rcases hcond with hc | hc
      · omega
      · simp [hc]
    | cons t ts => simp
  · -- Array
    intro ts hq k h
    cases k <;> simp_all [good, Token.isDynamic, ParamType.isDynamic]
  · -- Tuple
    intro ts hq k h
    cases k <;> simp_all [good, Token.isDynamic, ParamType.isDynamic]
    rename_i ks
    exact hq.1 ks h
  · exact ⟨fun ks h => by cases ks <;> simp_all [goodSeq, anyDynamicTok, anyDynamic],
      fun k h => by simp [anyDynamicTok]⟩
  · intro t ts hp hq
    constructor
    · intro ks h
      cases ks with
      | nil => simp [goodSeq] at h
      | cons k ks =>
        rw [goodSeq] at h
        simp only [Bool.and_eq_true] at h
        rw [anyDynamicTok, anyDynamic, hp k h.1, hq.1 ks h.2]
    · intro k h
      rw [goodAll] at h
      simp only [Bool.and_eq_true] at h
      rw [anyDynamicTok, hp k h.1, hq.2 k h.2]
      cases ts with
      | nil => simp [anyDynamicTok]
      | cons t' ts' =>
        simp only [List.isEmpty_cons, Bool.not_false, Bool.true_and]
        cases (k.isDynamic) <;> simp

/-- Conformant tokens have the dynamism of their kind. -/
theorem dyn_agree (t : Token) (k : ParamType) (h : good t k = true) :
    t.isDynamic = k.isDynamic := dynP_all t k h

/-- Pointwise conformant token lists have the dynamism of their kind list. -/
theorem dynSeq_agree (ts : List Token) (ks : List ParamType) (h : goodSeq ts ks = true) :
    anyDynamicTok ts = anyDynamic ks := by
  induction ts generalizing ks with
  | nil => cases ks <;> simp_all [goodSeq, anyDynamicTok, anyDynamic]
  | cons t ts ih =>
    cases ks with
    | nil => simp [goodSeq] at h
    | cons k ks =>
      rw [goodSeq] at h
      simp only [Bool.and_eq_true] at h
      rw [anyDynamicTok, anyDynamic, dyn_agree t k h.1, ih ks h.2]

/-- Uniformly conformant token lists: dynamism from the element kind. -/
theorem dynAll_agree (ts : List Token) (k : ParamType) (h : goodAll ts k = true) :
    anyDynamicTok ts = (!ts.isEmpty && k.isDynamic) := by
  induction ts with
  | nil => simp [anyDynamicTok]
  | cons t ts ih =>
    rw [goodAll] at h
    simp only [Bool.and_eq_true] at h
    rw [anyDynamicTok, dyn_agree t k h.1, ih h.2]
    cases ts with
    | nil => simp [anyDynamicTok]
    | cons t' ts' =>
      simp only [List.isEmpty_cons, Bool.not_false, Bool.true_and]
      cases (k.isDynamic) <;> simp

/-- Static size agreement motive for one token. -/
def SizeP (t : Token) : Prop :=
  ∀ k, good t k = true → k.isDynamic = false → (encStatic t).length = staticSize k

/-- Static size agreement motive for token lists. -/
def SizeQ (ts : List Token) : Prop :=
  (∀ ks, goodSeq ts ks = true → anyDynamic ks = false → headsLen ts = staticSizeList ks) ∧
  (∀ k, goodAll ts k = true → k.isDynamic = false → headsLen ts = ts.length * staticSize k)

theorem sizeP_all : ∀ t, SizeP t := by
  refine tokenInd SizeP SizeQ ?_ ?_ ?_ ?_ ?_ ?_ ?_ ?_ ?_ ?_ ?_ ?_
  · intro b k h _; cases k <;> simp_all [good, encStatic, staticSize, beWord_length]
  · intro a k h _
    cases k <;> simp_all [good, encStatic, staticSize]
  · intro v k h _; cases k <;> simp_all [good, encStatic, staticSize, beWord_length]
  · intro v k h _; cases k <;> simp_all [good, encStatic, staticSize, beWord_length]
  · intro bs k h _
    cases k <;> simp_all [good, encStatic, staticSize]
    rename_i n
    obtain ⟨⟨h1, h2⟩, h3⟩ := h
    exact padRight32_length_32 bs (by omega) (by omega)
  · intro bs k h hd; cases k <;> simp_all [good, ParamType.isDynamic]
  · intro s k h hd; cases k <;> simp_all [good, ParamType.isDynamic]
  · -- FixedArray
    intro ts hq k h hd
    cases k
    case FixedArray k n =>
      simp only [good, Bool.and_eq_true, beq_iff_eq] at h
      obtain ⟨⟨hlen, hcond⟩, hall⟩ := h
      simp only [ParamType.isDynamic] at hd
      have hstat : anyDynamicTok ts = false := by
        rw [dynAll_agree ts k hall, hd]; simp
      simp only [encStatic, staticSize, encTails_of_static ts hstat,
        List.length_append, encHeads_length, List.length_nil, Nat.add_zero]
      rw [hq.2 k hall hd, hlen]
    all_goals simp [good] at h
  · -- Array
    intro ts hq k h hd
    cases k
    case Array k =>
      simp [ParamType.isDynamic] at hd
    all_goals simp [good] at h
  · -- Tuple
    intro ts hq k h hd
    cases k
    case Tuple ks =>
      simp only [good] at h
      simp only [ParamType.isDynamic] at hd
      have hstat : anyDynamicTok ts = false := by
        rw [dynSeq_agree ts ks h, hd]
      simp only [encStatic, staticSize, encTails_of_static ts hstat,
        List.length_append, encHeads_length, List.length_nil, Nat.add_zero]
      exact hq.1 ks h hd
    all_goals simp [good] at h
  · constructor
    · intro ks h _; cases ks <;> simp_all [goodSeq, headsLen, staticSizeList]
    · intro k _ _; simp [headsLen]
  · intro t ts hp hq
    constructor
    · intro ks h hst
      cases ks with
      | nil => simp [goodSeq] at h
      | cons k ks =>
        rw [goodSeq] at h
        simp only [Bool.and_eq_true] at h
        rw [anyDynamic] at hst
        simp only [Bool.or_eq_false_iff] at hst
        rw [headsLen, staticSizeList, if_neg (by rw [dyn_agree t k h.1, hst.1]; simp),
          hp k h.1 hst.1, hq.1 ks h.2 hst.2]
    · intro k h hst
      rw [goodAll] at h
      simp only [Bool.and_eq_true] at h
      rw [headsLen, if_neg (by rw [dyn_agree t k h.1, hst]; simp),
        hp k h.1 hst, hq.2 k h.2 hst, List.length_cons]
      ring

/-- Conformant static tokens encode inline to exactly the static size of
their kind. -/
theorem size_agree (t : Token) (k : ParamType) (h : good t k = true)
    (hd : k.isDynamic = false) : (encStatic t).length = staticSize k :=
  sizeP_all t k h hd

/-- Sequence version of `size_agree` for the head region. -/
theorem headsLen_agree (ts : List Token) (ks : List ParamType)
    (h : goodSeq ts ks = true) (hst : anyDynamic ks = false) :
    headsLen ts = staticSizeList ks := by
  induction ts generalizing ks with
  | nil => cases ks <;> simp_all [goodSeq, headsLen, staticSizeList]
  | cons t ts ih =>
    cases ks with
    | nil => simp [goodSeq] at h
    | cons k ks =>
      rw [goodSeq] at h
      simp only [Bool.and_eq_true] at h
      rw [anyDynamic] at hst
      simp only [Bool.or_eq_false_iff] at hst
      rw [headsLen, staticSizeList, if_neg (by rw [dyn_agree t k h.1, hst.1]; simp),
        size_agree t k h.1 hst.1, ih ks h.2 hst.2]

/-- Uniform version of `size_agree` for fixed arrays. -/
theorem headsLen_agree_all (ts : List Token) (k : ParamType)
    (h : goodAll ts k = true) (hst : k.isDynamic = false) :
    headsLen ts = ts.length * staticSize k := by
  induction ts with
  | nil => simp [headsLen]
  | cons t ts ih =>
    rw [goodAll] at h
    simp only [Bool.and_eq_true] at h
    rw [headsLen, if_neg (by rw [dyn_agree t k h.1, hst]; simp),
      size_agree t k h.1 hst, ih h.2, List.length_cons]
    ring

end Ethabi

namespace Ethabi

/-! ## Decoder correctness on encoder output -/

theorem sizeK_pos (k : ParamType) : 1 ≤ sizeK k := by
  cases k <;> simp [sizeK]

theorem drop_sub_len (frame : List Nat) (pos : Nat) (X rest : List Nat)
    (h : frame.drop pos = X ++ rest) :
    frame.length - pos = X.length + rest.length := by
  have := congrArg List.length h
  simpa using this

/-- Decoder correctness motive for one token: under strengthened
conformance, reading its static inline bytes back, or reading its tail
block at the offset in its head word, returns exactly the token. -/
def DecP (t : Token) : Prop :=
  ∀ k fuel frame pos, good t k = true → sizeK k ≤ fuel → frame.length < 2 ^ 256 →
    (k.isDynamic = false →
      ∀ post, frame.drop pos = encStatic t ++ post → pos ≤ frame.length →
        dec fuel k frame pos = some t) ∧
    (k.isDynamic = true →
      ∀ off junk, wordAt frame pos = some off → frame.drop off = encTail t ++ junk →
        dec fuel k frame pos = some t)

/-- Decoder correctness motive for a token list against a kind list, for
the walk of `decFields` along an encoded head region. -/
def DecQseq (ts : List Token) : Prop :=
  ∀ ks fuel frame pos hl tailOff rest junk,
    goodSeq ts ks = true → sizeKs ks ≤ fuel → frame.length < 2 ^ 256 →
    frame.drop pos = encHeads hl tailOff ts ++ rest →
    frame.drop (hl + tailOff) = encTails ts ++ junk →
    hl + tailOff ≤ frame.length → pos ≤ frame.length →
    decFields (dec fuel) ks frame pos = some ts

/-- Decoder correctness motive for a token list against one repeated
element kind, for the walk of `decLoop`. -/
def DecQloop (ts : List Token) : Prop :=
  ∀ k fuel frame pos hl tailOff rest junk,
    goodAll ts k = true → sizeK k ≤ fuel → frame.length < 2 ^ 256 →
    frame.drop pos = encHeads hl tailOff ts ++ rest →
    frame.drop (hl + tailOff) = encTails ts ++ junk →
    hl + tailOff ≤ frame.length → pos ≤ frame.length →
    decLoop (dec fuel k) (headSize k) ts.length frame pos = some ts

theorem decP_bool (b : Bool) : DecP (.Bool b) := by
  intro k fuel frame pos hg hsz hfr
  cases k
  case Bool =>
    constructor
    · intro _ post hdrop hpos
      cases fuel with
      | zero => have := sizeK_pos ParamType.Bool; omega
      | succ fuel =>
        have hw : wordAt frame pos = some (if b then 1 else 0) :=
          wordAt_of_drop frame pos _ post (by cases b <;> norm_num) hdrop
        simp only [dec, hw, Option.bind_eq_bind, Option.some_bind]
        cases b <;> rfl
    · intro hdyn
      simp [ParamType.isDynamic] at hdyn
  all_goals simp [good] at hg

theorem decP_address (a : Addr) : DecP (.Address a) := by
  intro k fuel frame pos hg hsz hfr
  cases k
  case Address =>
    constructor
    · intro _ post hdrop hpos
      cases fuel with
      | zero => have := sizeK_pos ParamType.Address; omega
      | succ fuel =>
        simp only [encStatic] at hdrop
        have hsl : sliceAt frame pos 32 = some (List.replicate 12 0 ++ a.val) :=
          sliceAt_of_drop frame pos 32 _ post hdrop (by simp [a.property]) hpos
        simp only [dec, hsl, Option.bind_eq_bind, Option.some_bind]
        rw [drop_append_len _ _ 12 (by simp)]
        rw [dif_pos a.property]
        obtain ⟨av, ha⟩ := a
        rfl
    · intro hdyn
      simp [ParamType.isDynamic] at hdyn
  all_goals simp [good] at hg

theorem decP_uint (v : Fin (2 ^ 256)) : DecP (.Uint v) := by
  intro k fuel frame pos hg hsz hfr
  cases k
  case Uint bits =>
    constructor
    · intro _ post hdrop hpos
      cases fuel with
      | zero => have := sizeK_pos (ParamType.Uint bits); omega
      | succ fuel =>
        have hw : wordAt frame pos = some v.val :=
          wordAt_of_drop frame pos _ post v.isLt hdrop
        simp only [dec, hw, Option.bind_eq_bind, Option.some_bind]
        rw [dif_pos v.isLt]
    · intro hdyn
      simp [ParamType.isDynamic] at hdyn
  all_goals simp [good] at hg

theorem decP_int (v : Fin (2 ^ 256)) : DecP (.Int v) := by
  intro k fuel frame pos hg hsz hfr
  cases k
  case Int bits =>
    constructor
    · intro _ post hdrop hpos
      cases fuel with
      | zero => have := sizeK_pos (ParamType.Int bits); omega
      | succ fuel =>
        have hw : wordAt frame pos = some v.val :=
          wordAt_of_drop frame pos _ post v.isLt hdrop
        simp only [dec, hw, Option.bind_eq_bind, Option.some_bind]
        rw [dif_pos v.isLt]
    · intro hdyn
      simp [ParamType.isDynamic] at hdyn
  all_goals simp [good] at hg

theorem decP_fixedbytes (bs : List Nat) : DecP (.FixedBytes bs) := by
  intro k fuel frame pos hg hsz hfr
  cases k
  case FixedBytes n =>
    simp only [good, Bool.and_eq_true, beq_iff_eq, decide_eq_true_eq] at hg
    obtain ⟨⟨hlen, h1⟩, h32⟩ := hg
    constructor
    · intro _ post hdrop hpos
      cases fuel with
      | zero => have := sizeK_pos (ParamType.FixedBytes n); omega
      | succ fuel =>
        simp only [encStatic] at hdrop
        have hsl : sliceAt frame pos 32 = some (padRight32 bs) :=
          sliceAt_of_drop frame pos 32 _ post hdrop
            (padRight32_length_32 bs (by omega) (by omega)) hpos
        simp only [dec, hsl, Option.bind_eq_bind, Option.some_bind]
        rw [show (padRight32 bs).take n = bs from by
          rw [padRight32, ← hlen, take_append_len _ _ bs.length rfl]]
    · intro hdyn
      simp [ParamType.isDynamic] at hdyn
  all_goals simp [good] at hg

theorem decP_bytes (bs : List Nat) : DecP (.Bytes bs) := by
  intro k fuel frame pos hg hsz hfr
  cases k
  case Bytes =>
    simp only [good, decide_eq_true_eq] at hg
    constructor
    · intro hstat
      simp [ParamType.isDynamic] at hstat
    · intro _ off junk hoff htail
      cases fuel with
      | zero => have := sizeK_pos ParamType.Bytes; omega
      | succ fuel =>
        simp only [encTail, List.append_assoc] at htail
        have hlenw : wordAt frame off = some bs.length :=
          wordAt_of_drop frame off _ _ hg htail
        have hoffb := drop_sub_len frame off (beWord bs.length) (padRight32 bs ++ junk)
          (by rw [htail])
        rw [beWord_length, List.length_append] at hoffb
        have hpp := padRight32_length_ge bs
        have hdropd : frame.drop (off + 32) = bs ++ (List.replicate ((32 - bs.length % 32) % 32) 0 ++ junk) := by
          rw [← drop_of_drop, htail, drop_append_len _ _ 32 (beWord_length _)]
          simp [padRight32]
        have hsl : sliceAt frame (off + 32) bs.length = some bs :=
          sliceAt_of_drop frame (off + 32) bs.length bs _ hdropd rfl (by omega)
        simp only [dec, hoff, hlenw, hsl, Option.bind_eq_bind, Option.some_bind]
  all_goals simp [good] at hg

theorem decP_string (s : List Rune) : DecP (.String s) := by
  intro k fuel frame pos hg hsz hfr
  cases k
  case String =>
    simp only [good, decide_eq_true_eq] at hg
    constructor
    · intro hstat
      simp [ParamType.isDynamic] at hstat
    · intro _ off junk hoff htail
      cases fuel with
      | zero => have := sizeK_pos ParamType.String; omega
      | succ fuel =>
        simp only [encTail, List.append_assoc] at htail
        have hlenw : wordAt frame off = some (utf8Encode s).length :=
          wordAt_of_drop frame off _ _ hg htail
        have hoffb := drop_sub_len frame off (beWord (utf8Encode s).length)
          (padRight32 (utf8Encode s) ++ junk) (by rw [htail])
        rw [beWord_length, List.length_append] at hoffb
        have hpp := padRight32_length_ge (utf8Encode s)
        have hdropd : frame.drop (off + 32) = utf8Encode s ++
            (List.replicate ((32 - (utf8Encode s).length % 32) % 32) 0 ++ junk) := by
          rw [← drop_of_drop, htail, drop_append_len _ _ 32 (beWord_length _)]
          simp [padRight32]
        have hsl : sliceAt frame (off + 32) (utf8Encode s).length = some (utf8Encode s) :=
          sliceAt_of_drop frame (off + 32) (utf8Encode s).length _ _ hdropd rfl (by omega)
        simp only [dec, hoff, hlenw, hsl, Option.bind_eq_bind, Option.some_bind]
        rw [utf8Decode_encode]
        rfl
  all_goals simp [good] at hg

end Ethabi

namespace Ethabi

/-- Apply the sequence motive to a nested region starting at offset 0. -/
theorem region_seq (ts : List Token) (ks : List ParamType) (fuel : Nat)
    (inner junk : List Nat) (hq : DecQseq ts) (hg : goodSeq ts ks = true)
    (hsz : sizeKs ks ≤ fuel) (hlen : inner.length < 2 ^ 256)
    (hin : inner = encHeads (headsLen ts) 0 ts ++ (encTails ts ++ junk)) :
    decFields (dec fuel) ks inner 0 = some ts := by
  apply hq ks fuel inner 0 (headsLen ts) 0 (encTails ts ++ junk) junk hg hsz hlen
  · rw [List.drop_zero, hin]
  · rw [Nat.add_zero, hin, drop_append_len _ _ (headsLen ts) (encHeads_length ts _ _)]
  · have := congrArg List.length hin
    simp only [List.length_append, encHeads_length] at this
    omega
  · exact Nat.zero_le _

/-- Apply the loop motive to a nested region starting at offset 0. -/
theorem region_loop (ts : List Token) (k : ParamType) (fuel : Nat)
    (inner junk : List Nat) (hq : DecQloop ts) (hg : goodAll ts k = true)
    (hsz : sizeK k ≤ fuel) (hlen : inner.length < 2 ^ 256)
    (hin : inner = encHeads (headsLen ts) 0 ts ++ (encTails ts ++ junk)) :
    decLoop (dec fuel k) (headSize k) ts.length inner 0 = some ts := by
  apply hq k fuel inner 0 (headsLen ts) 0 (encTails ts ++ junk) junk hg hsz hlen
  · rw [List.drop_zero, hin]
  · rw [Nat.add_zero, hin, drop_append_len _ _ (headsLen ts) (encHeads_length ts _ _)]
  · have := congrArg List.length hin
    simp only [List.length_append, encHeads_length] at this
    omega
  · exact Nat.zero_le _

theorem decP_tuple (ts : List Token) (hq : DecQseq ts) : DecP (.Tuple ts) := by
  intro k fuel frame pos hg hsz hfr
  cases k
  case Tuple ks =>
    simp only [good] at hg
    simp only [sizeK] at hsz
    constructor
    · intro hstat post hdrop hpos
      simp only [ParamType.isDynamic] at hstat
      cases fuel with
      | zero => omega
      | succ fuel =>
        simp only [dec]
        rw [if_neg (by rw [hstat]; simp)]
        have htiny : anyDynamicTok ts = false := by rw [dynSeq_agree ts ks hg, hstat]
        simp only [encStatic, encTails_of_static ts htiny, List.append_nil] at hdrop
        have hres : decFields (dec fuel) ks frame pos = some ts := by
          apply hq ks fuel frame pos (headsLen ts) 0 post (frame.drop (headsLen ts))
            hg (by omega) hfr
          · exact hdrop
          · rw [Nat.add_zero, encTails_of_static ts htiny, List.nil_append]
          · have := drop_sub_len frame pos _ _ hdrop
            rw [encHeads_length] at this
            omega
          · exact hpos
        rw [hres]
        rfl
    · intro hdyn off junk hoff htail
      simp only [ParamType.isDynamic] at hdyn
      cases fuel with
      | zero => omega
      | succ fuel =>
        simp only [dec]
        rw [if_pos hdyn, hoff]
        simp only [Option.bind_eq_bind, Option.some_bind]
        simp only [encTail, List.append_assoc] at htail
        have hres : decFields (dec fuel) ks (frame.drop off) 0 = some ts := by
          apply region_seq ts ks fuel _ junk hq hg (by omega) ?_ htail
          have := List.length_drop off frame
          omega
        rw [hres]
        rfl
  all_goals simp [good] at hg

theorem decP_array (ts : List Token) (hq : DecQloop ts) : DecP (.Array ts) := by
  intro k fuel frame pos hg hsz hfr
  cases k
  case Array k =>
    simp only [good, Bool.and_eq_true, decide_eq_true_eq] at hg
    obtain ⟨hcnt, hall⟩ := hg
    simp only [sizeK] at hsz
    constructor
    · intro hstat
      simp [ParamType.isDynamic] at hstat
    · intro _ off junk hoff htail
      cases fuel with
      | zero => omega
      | succ fuel =>
        simp only [dec]
        rw [hoff]
        simp only [Option.bind_eq_bind, Option.some_bind]
        simp only [encTail, List.append_assoc] at htail
        have hm : wordAt frame off = some ts.length :=
          wordAt_of_drop frame off _ _ hcnt htail
        rw [hm]
        simp only [Option.some_bind]
        have hdropd : frame.drop (off + 32) =
            encHeads (headsLen ts) 0 ts ++ (encTails ts ++ junk) := by
          rw [← drop_of_drop, htail, drop_append_len _ _ 32 (beWord_length _)]
        have hres : decLoop (dec fuel k) (headSize k) ts.length (frame.drop (off + 32)) 0 =
            some ts := by
          apply region_loop ts k fuel _ junk hq hall (by omega) ?_ hdropd
          have := List.length_drop (off + 32) frame
          omega
        rw [hres]
        rfl
  all_goals simp [good] at hg

theorem decP_fixedarray (ts : List Token) (hq : DecQloop ts) : DecP (.FixedArray ts) := by
  intro k fuel frame pos hg hsz hfr
  cases k
  case FixedArray k n =>
    simp only [good, Bool.and_eq_true, beq_iff_eq] at hg
    obtain ⟨⟨hlen, hcond⟩, hall⟩ := hg
    simp only [sizeK] at hsz
    constructor
    · intro hstat post hdrop hpos
      simp only [ParamType.isDynamic] at hstat
      cases fuel with
      | zero => omega
      | succ fuel =>
        simp only [dec]
        rw [if_neg (by rw [hstat]; simp)]
        have htiny : anyDynamicTok ts = false := by
          rw [dynAll_agree ts k hall, hstat]; simp
        simp only [encStatic, encTails_of_static ts htiny, List.append_nil] at hdrop
        have hres : decLoop (dec fuel k) (headSize k) ts.length frame pos = some ts := by
          apply hq k fuel frame pos (headsLen ts) 0 post (frame.drop (headsLen ts))
            hall (by omega) hfr
          · exact hdrop
          · rw [Nat.add_zero, encTails_of_static ts htiny, List.nil_append]
          · have := drop_sub_len frame pos _ _ hdrop
            rw [encHeads_length] at this
            omega
          · exact hpos
        rw [← hlen, hres]
        rfl
    · intro hdyn off junk hoff htail
      simp only [ParamType.isDynamic] at hdyn
      cases fuel with
      | zero => omega
      | succ fuel =>
        simp only [dec]
        rw [if_pos hdyn, hoff]
        simp only [Option.bind_eq_bind, Option.some_bind]
        simp only [encTail, List.append_assoc] at htail
        have hres : decLoop (dec fuel k) (headSize k) ts.length (frame.drop off) 0 =
            some ts := by
          apply region_loop ts k fuel _ junk hq hall (by omega) ?_ htail
          have := List.length_drop off frame
          omega
        rw [← hlen, hres]
        rfl
  all_goals simp [good] at hg

end Ethabi

namespace Ethabi

theorem decQseq_nil : DecQseq [] := by
  intro ks fuel frame pos hl tailOff rest junk hg _ _ _ _ _ _
  cases ks with
  | nil => rfl
  | cons k ks => simp [goodSeq] at hg

theorem decQloop_nil : DecQloop [] := by
  intro k fuel frame pos hl tailOff rest junk _ _ _ _ _ _ _
  rfl

theorem decQseq_cons (t : Token) (ts : List Token) (hp : DecP t) (hq : DecQseq ts) :
    DecQseq (t :: ts) := by
  intro ks fuel frame pos hl tailOff rest junk hg hsz hfr H1 H2 H4 H6
  cases ks with
  | nil => simp [goodSeq] at hg
  | cons k ks =>
    simp only [goodSeq, Bool.and_eq_true] at hg
    obtain ⟨hgt, hgts⟩ := hg
    simp only [sizeKs] at hsz
    have hkszp := sizeK_pos k
    by_cases hkd : k.isDynamic = true
    · have hdt : t.isDynamic = true := by rw [dyn_agree t k hgt, hkd]
      simp only [encHeads] at H1
      rw [if_pos hdt, List.append_assoc] at H1
      simp only [encTails] at H2
      rw [if_pos hdt, List.append_assoc] at H2
      have hw : wordAt frame pos = some (hl + tailOff) :=
        wordAt_of_drop frame pos (hl + tailOff) _ (by omega) H1
      have hdect : dec fuel k frame pos = some t :=
        (hp k fuel frame pos hgt (by omega) hfr).2 hkd (hl + tailOff)
          (encTails ts ++ junk) hw H2
      have hlen1 := drop_sub_len frame pos _ _ H1
      rw [beWord_length] at hlen1
      have hlen2 := drop_sub_len frame (hl + tailOff) _ _ H2
      have H1' : frame.drop (pos + 32) =
          encHeads hl (tailOff + (encTail t).length) ts ++ rest := by
        rw [← drop_of_drop, H1, drop_append_len _ _ 32 (beWord_length _)]
      have H2' : frame.drop (hl + (tailOff + (encTail t).length)) =
          encTails ts ++ junk := by
        rw [← Nat.add_assoc, ← drop_of_drop, H2,
          drop_append_len _ _ (encTail t).length rfl]
      have hrest : decFields (dec fuel) ks frame (pos + 32) = some ts :=
        hq ks fuel frame (pos + 32) hl (tailOff + (encTail t).length) rest junk
          hgts (by omega) hfr H1' H2' (by omega) (by omega)
      simp only [decFields, hdect, Option.bind_eq_bind, Option.some_bind]
      rw [show headSize k = 32 from by rw [headSize, if_pos hkd], hrest]
      rfl
    · rw [Bool.not_eq_true] at hkd
      have hdt : t.isDynamic = false := by rw [dyn_agree t k hgt, hkd]
      simp only [encHeads] at H1
      rw [if_neg (by rw [hdt]; simp), List.append_assoc] at H1
      simp only [encTails] at H2
      rw [if_neg (by rw [hdt]; simp), List.nil_append] at H2
      have hdect : dec fuel k frame pos = some t :=
        (hp k fuel frame pos hgt (by omega) hfr).1 hkd
          (encHeads hl tailOff ts ++ rest) H1 H6
      have hS := size_agree t k hgt hkd
      have hlen1 := drop_sub_len frame pos _ _ H1
      have H1' : frame.drop (pos + staticSize k) = encHeads hl tailOff ts ++ rest := by
        rw [← drop_of_drop, H1, drop_append_len _ _ (staticSize k) hS]
      have hrest : decFields (dec fuel) ks frame (pos + staticSize k) = some ts :=
        hq ks fuel frame (pos + staticSize k) hl tailOff rest junk
          hgts (by omega) hfr H1' H2 H4 (by omega)
      simp only [decFields, hdect, Option.bind_eq_bind, Option.some_bind]
      rw [show headSize k = staticSize k from by rw [headSize, if_neg (by rw [hkd]; simp)],
        hrest]
      rfl

theorem decQloop_cons (t : Token) (ts : List Token) (hp : DecP t) (hq : DecQloop ts) :
    DecQloop (t :: ts) := by
  intro k fuel frame pos hl tailOff rest junk hg hsz hfr H1 H2 H4 H6
  simp only [goodAll, Bool.and_eq_true] at hg
  obtain ⟨hgt, hgts⟩ := hg
  have hkszp := sizeK_pos k
  simp only [List.length_cons]
  by_cases hkd : k.isDynamic = true
  · have hdt : t.isDynamic = true := by rw [dyn_agree t k hgt, hkd]
    simp only [encHeads] at H1
    rw [if_pos hdt, List.append_assoc] at H1
    simp only [encTails] at H2
    rw [if_pos hdt, List.append_assoc] at H2
    have hw : wordAt frame pos = some (hl + tailOff) :=
      wordAt_of_drop frame pos (hl + tailOff) _ (by omega) H1
    have hdect : dec fuel k frame pos = some t :=
      (hp k fuel frame pos hgt hsz hfr).2 hkd (hl + tailOff)
        (encTails ts ++ junk) hw H2
    have hlen1 := drop_sub_len frame pos _ _ H1
    rw [beWord_length] at hlen1
    have hlen2 := drop_sub_len frame (hl + tailOff) _ _ H2
    have H1' : frame.drop (pos + 32) =
        encHeads hl (tailOff + (encTail t).length) ts ++ rest := by
      rw [← drop_of_drop, H1, drop_append_len _ _ 32 (beWord_length _)]
    have H2' : frame.drop (hl + (tailOff + (encTail t).length)) =
        encTails ts ++ junk := by
      rw [← Nat.add_assoc, ← drop_of_drop, H2,
        drop_append_len _ _ (encTail t).length rfl]
    have hrest : decLoop (dec fuel k) (headSize k) ts.length frame (pos + 32) = some ts :=
      hq k fuel frame (pos + 32) hl (tailOff + (encTail t).length) rest junk
        hgts hsz hfr H1' H2' (by omega) (by omega)
    rw [show headSize k = 32 from by rw [headSize, if_pos hkd]] at hrest
    simp only [decLoop, hdect, Option.bind_eq_bind, Option.some_bind]
    rw [show headSize k = 32 from by rw [headSize, if_pos hkd], hrest]
    rfl
  · rw [Bool.not_eq_true] at hkd
    have hdt : t.isDynamic = false := by rw [dyn_agree t k hgt, hkd]
    simp only [encHeads] at H1
    rw [if_neg (by rw [hdt]; simp), List.append_assoc] at H1
    simp only [encTails] at H2
    rw [if_neg (by rw [hdt]; simp), List.nil_append] at H2
    have hdect : dec fuel k frame pos = some t :=
      (hp k fuel frame pos hgt hsz hfr).1 hkd
        (encHeads hl tailOff ts ++ rest) H1 H6
    have hS := size_agree t k hgt hkd
    have hlen1 := drop_sub_len frame pos _ _ H1
    have H1' : frame.drop (pos + staticSize k) = encHeads hl tailOff ts ++ rest := by
      rw [← drop_of_drop, H1, drop_append_len _ _ (staticSize k) hS]
    have hrest : decLoop (dec fuel k) (headSize k) ts.length frame (pos + staticSize k) =
        some ts :=
      hq k fuel frame (pos + staticSize k) hl tailOff rest junk
        hgts hsz hfr H1' H2 H4 (by omega)
    rw [show headSize k = staticSize k from by
      rw [headSize, if_neg (by rw [hkd]; simp)]] at hrest
    simp only [decLoop, hdect, Option.bind_eq_bind, Option.some_bind]
    rw [show headSize k = staticSize k from by rw [headSize, if_neg (by rw [hkd]; simp)],
      hrest]
    rfl

theorem decP_all : ∀ t, DecP t :=
  tokenInd DecP (fun ts => DecQseq ts ∧ DecQloop ts)
    decP_bool decP_address decP_uint decP_int decP_fixedbytes decP_bytes decP_string
    (fun ts h => decP_fixedarray ts h.2) (fun ts h => decP_array ts h.2)
    (fun ts h => decP_tuple ts h.1)
    ⟨decQseq_nil, decQloop_nil⟩
    (fun t ts hp hq => ⟨decQseq_cons t ts hp hq.1, decQloop_cons t ts hp hq.2⟩)

theorem decSeq_all : ∀ ts, DecQseq ts ∧ DecQloop ts :=
  tokenListInd DecP (fun ts => DecQseq ts ∧ DecQloop ts)
    decP_bool decP_address decP_uint decP_int decP_fixedbytes decP_bytes decP_string
    (fun ts h => decP_fixedarray ts h.2) (fun ts h => decP_array ts h.2)
    (fun ts h => decP_tuple ts h.1)
    ⟨decQseq_nil, decQloop_nil⟩
    (fun t ts hp hq => ⟨decQseq_cons t ts hp hq.1, decQloop_cons t ts hp hq.2⟩)

/-- The round-trip theorem: under strengthened conformance and the length
bound of the machine, decoding an encoded token sequence returns it. -/
theorem decode_encode_strong (ks : List ParamType) (ts : List Token)
    (hg : goodSeq ts ks = true) (hlen : (encode ts).length < 2 ^ 256) :
    decode ks (encode ts) = .ok ts := by
  unfold decode
  have h : decFields (dec (1 + sizeKs ks)) ks (encode ts) 0 = some ts := by
    apply (decSeq_all ts).1 ks (1 + sizeKs ks) (encode ts) 0 (headsLen ts) 0
      (encTails ts) [] hg (by omega) hlen
    · rw [List.drop_zero]; rfl
    · rw [Nat.add_zero]
      show (encHeads (headsLen ts) 0 ts ++ encTails ts).drop (headsLen ts) = _
      rw [drop_append_len _ _ (headsLen ts) (encHeads_length ts _ _), List.append_nil]
    · rw [Nat.add_zero]
      show headsLen ts ≤ (encHeads (headsLen ts) 0 ts ++ encTails ts).length
      rw [List.length_append, encHeads_length]
      omega
    · exact Nat.zero_le _
  rw [h]

end Ethabi

namespace Ethabi

/-! ## Concrete scenarios from the crate tests -/

theorem keccak256_length (msg : List Nat) : (keccak256 msg).length = 32 := by
  simp [keccak256]

/-- The `baz(uint32,bool)` function of `tests::test_function_encode_call`. -/
def bazFn : Function :=
  ⟨strBytes "baz",
   [Param.mk (strBytes "a") (ParamType.Uint 32) [], Param.mk (strBytes "b") ParamType.Bool []],
   [], false⟩

/-- The value 69 as a 256-bit word. -/
def u69 : Fin (2 ^ 256) := ⟨69, by norm_num⟩

/-- The address of `test_function_encode_call_with_tuple`. -/
def helloAddr : Addr :=
  ⟨[0xce, 0x39, 0x7e, 0x30, 0x54, 0x4d, 0x73, 0x71, 0x95, 0xa3,
    0x41, 0x29, 0x16, 0x75, 0xec, 0x1e, 0xca, 0xf1, 0x9b, 0x13], by decide⟩

/-- The `hello(address,(bool,bytes))` function of
`test_function_encode_call_with_tuple`. -/
def helloFn : Function :=
  ⟨strBytes "hello",
   [Param.mk (strBytes "bar") ParamType.Address [],
    Param.mk (strBytes "foo") (ParamType.Tuple [ParamType.Bool, ParamType.Bytes])
      [Param.mk (strBytes "bar") ParamType.Bool [],
       Param.mk (strBytes "baz") ParamType.Bytes []]],
   [], false⟩

/-- The argument tokens of the tuple test call. -/
def helloTokens : List Token :=
  [Token.Address helloAddr, Token.Tuple [Token.Bool true, Token.Bytes []]]

/-! ## Claim theorems -/

/-- C1: for every `Function` and every token sequence that type-checks
against the input kinds, `encode_input` succeeds and returns exactly the
4-byte selector over the name and input kinds concatenated with the
encoding of the tokens. -/
theorem C1_encode_input_success (f : Function) (ts : List Token)
    (h : types_check ts f.input_param_types = true) :
    f.encode_input ts = .ok (short_signature f.name f.input_param_types ++ encode ts) ∧
    (short_signature f.name f.input_param_types).length = 4 := by
  constructor
  · unfold Function.encode_input
    rw [if_pos h]
  · simp [short_signature, List.length_take, keccak256_length]

theorem C1_witness :
    types_check [Token.Uint u69, Token.Bool true] bazFn.input_param_types = true ∧
    (bazFn.encode_input [Token.Uint u69, Token.Bool true] =
      .ok (short_signature bazFn.name bazFn.input_param_types ++
        encode [Token.Uint u69, Token.Bool true]) ∧
     (short_signature bazFn.name bazFn.input_param_types).length = 4) :=
  ⟨by decide, C1_encode_input_success bazFn [Token.Uint u69, Token.Bool true] (by decide)⟩

/-- C2: for every `Function` and every token sequence that fails the
type check against the input kinds, `encode_input` returns the
invalid-data error and never returns any byte string. -/
theorem C2_encode_input_mismatch (f : Function) (ts : List Token)
    (h : types_check ts f.input_param_types = false) :
    f.encode_input ts = .error .InvalidData ∧ ∀ bs, f.encode_input ts ≠ .ok bs := by
  have he : f.encode_input ts = .error .InvalidData := by
    unfold Function.encode_input
    rw [if_neg (by rw [h]; simp)]
  exact ⟨he, fun bs hok => by rw [he] at hok; exact Except.noConfusion hok⟩

theorem C2_witness :
    types_check [Token.Bool true] bazFn.input_param_types = false ∧
    (bazFn.encode_input [Token.Bool true] = .error .InvalidData ∧
     ∀ bs, bazFn.encode_input [Token.Bool true] ≠ .ok bs) :=
  ⟨by decide, C2_encode_input_mismatch bazFn [Token.Bool true] (by decide)⟩

/-- C3 counterexample: a token sequence that type-checks (the conformance
check of section 4.2 inspects only variant shape) but does not round-trip:
a `FixedBytes` token whose payload is shorter than the declared width. -/
theorem C3_counterexample :
    types_check [Token.FixedBytes []] [ParamType.FixedBytes 1] = true ∧
    decode [ParamType.FixedBytes 1] (encode [Token.FixedBytes []]) ≠
      .ok [Token.FixedBytes []] := by
  constructor
  · decide
  · intro h
    rw [show decode [ParamType.FixedBytes 1] (encode [Token.FixedBytes []]) =
      .error .MalformedData from rfl] at h
    exact Except.noConfusion h

/-- C3 witness inputs. -/
def c3Ks : List ParamType := [ParamType.Uint 8, ParamType.Bytes]

/-- C3 witness tokens. -/
def c3Ts : List Token := [Token.Uint ⟨5, by norm_num⟩, Token.Bytes [1, 2, 3]]

set_option maxRecDepth 100000 in
theorem C3_witness :
    goodSeq c3Ts c3Ks = true ∧ (encode c3Ts).length < 2 ^ 256 ∧
    decode c3Ks (encode c3Ts) = .ok c3Ts :=
  ⟨by decide, by decide, decode_encode_strong c3Ks c3Ts (by decide) (by decide)⟩

/-- C4: the `ParamIr` to `Param` conversion rebuilds a declared tuple kind
from the component kinds whenever components are present. -/
theorem C4_tuple_folding (ir : ParamIr) (ks : List ParamType)
    (hk : ir.kind = ParamType.Tuple ks) (hc : 0 < ir.components.length) :
    (paramOfIr ir).kind = ParamType.Tuple (ir.components.map Param.kind) := by
  obtain ⟨nm, kd, cs⟩ := ir
  simp only at hk hc
  subst hk
  simp only [paramOfIr, Param.kind]
  rw [if_pos hc]

/-- C4 witness input: a tuple param with empty declared member kinds and
two components of kinds bool and bytes. -/
def c4Ir : ParamIr :=
  ⟨strBytes "foo", ParamType.Tuple [],
   [Param.mk (strBytes "bar") ParamType.Bool [],
    Param.mk (strBytes "baz") ParamType.Bytes []]⟩

theorem C4_witness :
    c4Ir.kind = ParamType.Tuple [] ∧ 0 < c4Ir.components.length ∧
    (paramOfIr c4Ir).kind = ParamType.Tuple [ParamType.Bool, ParamType.Bytes] :=
  ⟨rfl, by decide, (C4_tuple_folding c4Ir [] rfl (by decide)).trans rfl⟩

end Ethabi

namespace Ethabi

set_option maxRecDepth 1000000 in
/-- C5: the `baz(uint32,bool)` call with `(69, true)`: the selector bytes
`cdcd77c0` followed by the 32-byte big-endian word for 69 and the 32-byte
word for true, 64 payload bytes after the selector. -/
theorem C5_baz_concrete :
    bazFn.encode_input [Token.Uint u69, Token.Bool true] =
      .ok ([0xcd, 0xcd, 0x77, 0xc0] ++ (beWord 69 ++ beWord 1)) ∧
    (beWord 69 ++ beWord 1).length = 64 := by
  constructor
  · rfl
  · rfl

set_option maxRecDepth 1000000 in
/-- C6 counterexample: the payload of the `hello(address,(bool,bytes))`
call is not the address word, the offset word and a two-word tail of just
the bool word and the length word: the tuple region contains its own
offset word between them. -/
theorem C6_counterexample :
    helloFn.encode_input helloTokens ≠
      .ok (short_signature helloFn.name helloFn.input_param_types ++
        ((List.replicate 12 0 ++ helloAddr.val) ++ (beWord 0x40 ++ (beWord 1 ++ beWord 0)))) := by
  intro h
  have hval : helloFn.encode_input helloTokens =
      .ok (short_signature helloFn.name helloFn.input_param_types ++
        ((List.replicate 12 0 ++ helloAddr.val) ++
          (beWord 0x40 ++ (beWord 1 ++ (beWord 0x40 ++ beWord 0))))) := rfl
  rw [hval] at h
  simp only [Except.ok.injEq] at h
  have hlen := congrArg List.length h
  have hs4 : (short_signature helloFn.name helloFn.input_param_types).length = 4 := by
    simp [short_signature, List.length_take, keccak256_length]
  have ha20 : helloAddr.val.length = 20 := rfl
  simp only [List.length_append, beWord_length, List.length_replicate, hs4, ha20] at hlen
  omega

set_option maxRecDepth 1000000 in
/-- C6 as amended: the payload is the right-aligned address word, the
offset word `0x40`, and then the tuple region: its bool word, its inner
offset word `0x40` for the bytes member, and the empty-bytes length word
0, with no further data or padding bytes. -/
theorem C6_hello_concrete :
    helloFn.encode_input helloTokens =
      .ok (short_signature helloFn.name helloFn.input_param_types ++
        ((List.replicate 12 0 ++ helloAddr.val) ++
          (beWord 0x40 ++ (beWord 1 ++ (beWord 0x40 ++ beWord 0))))) := by
  rfl

/-- C7: `decode_output` is exactly `decode` over the declared output kinds
in order, and propagates any decode error unchanged. -/
theorem C7_decode_output (f : Function) (data : List Nat) :
    f.decode_output data = decode (f.outputs.map Param.kind) data ∧
    (∀ e, decode (f.outputs.map Param.kind) data = .error e →
      f.decode_output data = .error e) :=
  ⟨rfl, fun _ h => h⟩

/-- C7 witness input: a function with a single `uint8` output. -/
def outFn : Function :=
  ⟨strBytes "out", [], [Param.mk (strBytes "r") (ParamType.Uint 8) []], false⟩

theorem C7_witness : outFn.decode_output [] = Except.error AbiError.MalformedData :=
  (C7_decode_output outFn []).2 AbiError.MalformedData (by rfl)

/-- C8: `encode_input` and the selector are pure functions of the name,
the input kinds and the tokens: two functions agreeing on name and input
kinds give the identical selector and identical `encode_input` results,
whatever their other fields. -/
theorem C8_determinism (f g : Function) (ts : List Token)
    (hn : f.name = g.name) (hk : f.input_param_types = g.input_param_types) :
    short_signature f.name f.input_param_types =
      short_signature g.name g.input_param_types ∧
    f.encode_input ts = g.encode_input ts := by
  constructor
  · rw [hn, hk]
  · unfold Function.encode_input
    rw [hn, hk]

/-- C8 witness inputs: two functions equal in name and input kinds but
different in outputs and the constant flag. -/
def c8a : Function := ⟨strBytes "f", [Param.mk (strBytes "x") ParamType.Bool []], [], false⟩

/-- Second C8 witness function. -/
def c8b : Function :=
  ⟨strBytes "f", [Param.mk (strBytes "y") ParamType.Bool []],
   [Param.mk (strBytes "r") ParamType.Bool []], true⟩

theorem C8_witness :
    c8a.name = c8b.name ∧ c8a.input_param_types = c8b.input_param_types ∧
    (short_signature c8a.name c8a.input_param_types =
       short_signature c8b.name c8b.input_param_types ∧
     c8a.encode_input [Token.Bool true] = c8b.encode_input [Token.Bool true]) :=
  ⟨rfl, rfl, C8_determinism c8a c8b [Token.Bool true] rfl rfl⟩

/-- C9: `encode_input` depends only on the name, the input kinds and the
tokens, and `decode_output` depends only on the output kinds and the data;
param names, components, the constant flag, and (for decoding) the name
and inputs never influence the result. -/
theorem C9_projection (f g : Function) :
    (f.name = g.name → f.inputs.map Param.kind = g.inputs.map Param.kind →
      ∀ ts, f.encode_input ts = g.encode_input ts) ∧
    (f.outputs.map Param.kind = g.outputs.map Param.kind →
      ∀ data, f.decode_output data = g.decode_output data) := by
  constructor
  · intro hn hi ts
    unfold Function.encode_input Function.input_param_types
    rw [hn, hi]
  · intro ho data
    unfold Function.decode_output Function.output_param_types
    rw [ho]

/-- C9 witness inputs: same name and kinds, different param names,
components and constant flag. -/
def c9a : Function :=
  ⟨strBytes "g", [Param.mk (strBytes "x") (ParamType.Uint 32) []],
   [Param.mk (strBytes "r") ParamType.Bool []], false⟩

/-- Second C9 witness function. -/
def c9b : Function :=
  ⟨strBytes "g",
   [Param.mk (strBytes "z") (ParamType.Uint 32) [Param.mk (strBytes "c") ParamType.Bool []]],
   [Param.mk (strBytes "s") ParamType.Bool []], true⟩

theorem C9_witness :
    c9a.encode_input [Token.Uint u69] = c9b.encode_input [Token.Uint u69] ∧
    c9a.decode_output [7] = c9b.decode_output [7] :=
  ⟨(C9_projection c9a c9b).1 rfl rfl [Token.Uint u69],
   (C9_projection c9a c9b).2 rfl [7]⟩

/-- C10: the conversion carries name and components over verbatim, leaves
the kind unchanged for non-tuple kinds and for empty components, and is
idempotent. -/
theorem C10_conversion_frame (ir : ParamIr) :
    (paramOfIr ir).name = ir.name ∧
    (paramOfIr ir).components = ir.components ∧
    ((∀ ks, ir.kind ≠ ParamType.Tuple ks) → (paramOfIr ir).kind = ir.kind) ∧
    (ir.components = [] → (paramOfIr ir).kind = ir.kind) ∧
    paramOfIr ⟨(paramOfIr ir).name, (paramOfIr ir).kind, (paramOfIr ir).components⟩ =
      paramOfIr ir := by
  obtain ⟨nm, kd, cs⟩ := ir
  refine ⟨rfl, rfl, ?_, ?_, ?_⟩
  · intro hk
    cases kd <;> first | rfl | exact absurd rfl (hk _)
  · intro hc
    simp only at hc
    subst hc
    cases kd <;> rfl
  · cases kd <;> try rfl
    case Tuple ks =>
    simp only [paramOfIr, Param.name, Param.kind, Param.components]
    by_cases hc : 0 < cs.length
    · rw [if_pos hc, if_pos hc]
    · rw [if_neg hc, if_neg hc]

theorem C10_witness :
    (paramOfIr ⟨strBytes "w", ParamType.Uint 8, []⟩).kind = ParamType.Uint 8 :=
  (C10_conversion_frame ⟨strBytes "w", ParamType.Uint 8, []⟩).2.2.1
    (fun _ h => ParamType.noConfusion h)

end Ethabi
